import Mathlib

/-
Verification of the download-resolution pipeline of the repository
(`aw_agents/agents/download/download_core.py`, `aw_agents/agents/download/agent.py`,
`aw_agents/base.py`) against its natural-language specification.

Python strings are modelled as Lean `String` (operated on through their
`List Char` data, so every definition is executable and kernel-reducible);
response bodies are `List Nat` (bytes).  External collaborators (the HTTP
client, BeautifulSoup, `urllib.parse.urljoin`, `mimetypes.guess_extension`,
the injectable `aw.routing.ExtensionRouter`) are passed in as explicit
function parameters or pre-parsed data, following section 6 of the spec,
which fixes their contracts.  Character case conversion models `str.lower`
on ASCII data, which is all the fixed patterns use.
-/

/-- Substring test over lists: true when `pat` occurs contiguously in `s`.
Models the Python `pat in s` operator on strings. -/
def infixAux (pat : List Char) : List Char → Bool
  | [] => pat.isEmpty
  | c :: cs => pat.isPrefixOf (c :: cs) || infixAux pat cs

/-- `strHas s pat` models the Python expression `pat in s`. -/
def strHas (s pat : String) : Bool :=
  infixAux pat.data s.data

/-- Models Python `s.endswith(pat)`. -/
def strEndsWith (s pat : String) : Bool :=
  pat.data.reverse.isPrefixOf s.data.reverse

/-- Models Python `s.startswith(pat)`. -/
def strStartsWith (s pat : String) : Bool :=
  pat.data.isPrefixOf s.data

/-- Models Python `s.lower()` (ASCII case folding). -/
def strLower (s : String) : String :=
  ⟨s.data.map Char.toLower⟩

/-- One replacement pass of Python `s.replace(old, new)` over char lists,
with a fuel argument (the length of the list) guaranteeing termination.
Replacements are non-overlapping and scanned left to right, and the
replacement text is never rescanned, exactly as in CPython.  (The model is
never used with an empty `old`.) -/
def replaceAux (old new : List Char) : Nat → List Char → List Char
  | _, [] => []
  | 0, l => l
  | fuel + 1, c :: cs =>
    if old.isPrefixOf (c :: cs) && !old.isEmpty then
      new ++ replaceAux old new fuel ((c :: cs).drop old.length)
    else
      c :: replaceAux old new fuel cs

/-- Models Python `s.replace(old, new)` (all occurrences). -/
def strReplace (s old new : String) : String :=
  ⟨replaceAux old.data new.data s.data.length s.data⟩

/-! ## Filename sanitizer (`_sanitize_filename`, download_core.py lines 58-74) -/

/-- The characters replaced by the regex `[<>:"/\|?*]` in `_sanitize_filename`. -/
def forbiddenChars : List Char :=
  ['<', '>', ':', '"', '/', '\\', '|', '?', '*']

def isForbidden (c : Char) : Bool :=
  forbiddenChars.contains c

/-- A character matched by the regex class `[\s_]` (whitespace or underscore).
`Char.isWhitespace` covers the ASCII whitespace the sources exercise. -/
def isSpaceUnd (c : Char) : Bool :=
  c.isWhitespace || c == '_'

/-- `re.sub(r'[<>:"/\|?*]', '_', name)`: each forbidden character becomes
an underscore. -/
def replaceForbidden (l : List Char) : List Char :=
  l.map fun c => if isForbidden c then '_' else c

/-- `re.sub(r'[\s_]+', '_', name)`: every maximal run of whitespace or
underscore characters collapses to a single underscore.  The boolean flag
records whether the previous character belonged to such a run. -/
def collapseAux : Bool → List Char → List Char
  | _, [] => []
  | prev, c :: cs =>
    if isSpaceUnd c then
      if prev then collapseAux true cs else '_' :: collapseAux true cs
    else
      c :: collapseAux false cs

/-- `name.strip('_')`: drop every leading and trailing underscore. -/
def stripUnderscores (l : List Char) : List Char :=
  ((l.dropWhile (· == '_')).reverse.dropWhile (· == '_')).reverse

/-- The sanitizer pipeline on char lists.  `name[:max_length]` is `take`
(the identity when the name is already short enough). -/
def sanitizeList (l : List Char) (max_length : Nat) : List Char :=
  (stripUnderscores (collapseAux false (replaceForbidden l))).take max_length

/-- `_sanitize_filename` (download_core.py lines 58-74): replace invalid
characters by underscores, collapse whitespace/underscore runs, strip
leading and trailing underscores, truncate to `max_length`. -/
def _sanitize_filename (name : String) (max_length : Nat := 200) : String :=
  ⟨sanitizeList name.data max_length⟩

/-! ## Extension normalization (`_normalize_extension`, lines 38-50) -/

/-- `PLACEHOLDER_EXTENSIONS` (download_core.py line 35). -/
def PLACEHOLDER_EXTENSIONS : List String :=
  [".bin", ".tmp", ".dat", ".download"]

/-- `_normalize_extension` (lines 38-50): `None` and the empty string are
unusable, a missing leading dot is added, placeholder extensions are
discarded. -/
def _normalize_extension : Option String → Option String
  | none => none
  | some e =>
    if e.isEmpty then none
    else
      let e := if strStartsWith e "." then e else "." ++ e
      if PLACEHOLDER_EXTENSIONS.contains (strLower e) then none else some e

/-! ## Host-specific URL rewrites (lines 181-205) -/

/-- `_handle_github_url` (lines 181-192). -/
def _handle_github_url (url : String) : String :=
  if strHas url "github.com" && strHas url "/blob/" then
    strReplace (strReplace url "github.com" "raw.githubusercontent.com") "/blob/" "/"
  else url

/-- `_handle_huggingface_url` (lines 195-205). -/
def _handle_huggingface_url (url : String) : String :=
  if strHas url "huggingface.co" && strHas url "/blob/" then
    strReplace url "/blob/" "/resolve/"
  else url

/-! ## Models of the standard-library helpers the core calls

`urllib.parse.urlparse(...).path` and `pathlib.Path(...).stem/.suffix` are
Python standard library functions; they are modelled here for the ordinary
URL and filename shapes the pipeline handles. -/

/-- Model of `urlparse(url).path` for common URLs: skip the scheme and
network-location parts when a `://` separator is present, then keep
everything up to the first `?` or `#`. -/
def urlPath (url : String) : String :=
  let l := url.data
  let rest :=
    if infixAux "://".data l then
      ((l.drop (infixIdx "://".data l + 3)).dropWhile (· ≠ '/'))
    else l
  ⟨rest.takeWhile fun c => c ≠ '?' && c ≠ '#'⟩
where
  /-- Index of the first occurrence of `pat` in `l` (length of `l` if absent). -/
  infixIdx (pat : List Char) : List Char → Nat
    | [] => 0
    | c :: cs => if pat.isPrefixOf (c :: cs) then 0 else infixIdx pat cs + 1

/-- Model of `pathlib.Path(p).name`: the component after the last slash,
ignoring trailing slashes. -/
def pathName (p : String) : String :=
  ⟨((p.data.reverse.dropWhile (· == '/')).takeWhile (· ≠ '/')).reverse⟩

/-- Index of the last dot of `l`, if any. -/
def lastDotIdx (l : List Char) : Option Nat :=
  match l.reverse.findIdx? (· == '.') with
  | none => none
  | some j => some (l.length - 1 - j)

/-- Model of `pathlib.Path(p).suffix`: the final dotted extension of the
name, empty when the only dot is leading or trailing. -/
def pathSuffix (p : String) : String :=
  let n := (pathName p).data
  match lastDotIdx n with
  | some i => if 0 < i && i < n.length - 1 then ⟨n.drop i⟩ else ""
  | none => ""

/-- Model of `pathlib.Path(p).stem`: the name without its final suffix. -/
def pathStem (p : String) : String :=
  let n := (pathName p).data
  match lastDotIdx n with
  | some i => if 0 < i && i < n.length - 1 then ⟨n.take i⟩ else ⟨n⟩
  | none => ⟨n⟩

/-- `_infer_extension_from_content_type` (lines 77-87): strip any
parameters from the MIME type and look it up; `guess` is the external
`mimetypes.guess_extension` table.  Returns the empty string when the
lookup fails, as the source does. -/
def _infer_extension_from_content_type (guess : String → Option String)
    (content_type : String) : String :=
  (guess ⟨(content_type.data.takeWhile (· ≠ ';')).dropWhile Char.isWhitespace
      |>.reverse.dropWhile Char.isWhitespace |>.reverse⟩).getD ""

/-! ## Responses and parsed HTML

An HTTP response is modelled by the projections the core reads: the two
headers it inspects (empty string when the header is absent, matching the
`headers.get(..., '')` default), the body bytes, and the anchor/button
elements the HTML parser exposes for that body (section 6 of the spec fixes
the parser contract). -/

structure Tag where
  /-- Element name, `a` or `button` for the elements the detector visits. -/
  name : String
  /-- `get_text()` of the element. -/
  text : String
  /-- The `href` attribute, `none` when the attribute is missing. -/
  href : Option String
deriving DecidableEq

structure Response where
  contentType : String
  contentDisposition : String
  content : List Nat
  tags : List Tag
deriving DecidableEq

/-- The fixed keyword/pattern set of `_is_likely_landing_page` (lines 112-121). -/
def download_patterns : List String :=
  ["download", "get file", "direct link", "pdf", ".zip", ".tar", ".csv", ".json"]

/-- `_is_likely_landing_page` (lines 90-132): HTML content type, body not
larger than 1,000,000 bytes, and some anchor or button whose text or href
matches one of the fixed patterns. -/
def _is_likely_landing_page (r : Response) : Bool :=
  let content_type := strLower r.contentType
  if !strHas content_type "text/html" then false
  else if 1000000 < r.content.length then false
  else
    (r.tags.filter fun t => t.name == "a" || t.name == "button").any fun t =>
      download_patterns.any fun p =>
        strHas (strLower t.text) p || strHas (strLower (t.href.getD "")) p

/-! ## Download-link extraction (`_find_download_link`, lines 135-178) -/

/-- The priority patterns of `_find_download_link` (lines 144-153): a flag
for whether the regex is anchored at the end (`\.pdf$` style) or a plain
substring, the pattern text, and its weight. -/
def priority_patterns : List (Bool × String × Nat) :=
  [(true, ".pdf", 10), (false, "download", 8), (true, ".zip", 7),
   (true, ".tar.gz", 7), (true, ".csv", 6), (true, ".json", 6),
   (false, "/raw/", 5), (false, "/blob/", 3)]

/-- `re.search` of one priority pattern against a string. -/
def patMatch (anchored : Bool) (pat s : String) : Bool :=
  if anchored then strEndsWith s pat else strHas s pat

/-- The score of one link: the sum of the weights of the patterns matching
the lowercased absolute URL or the (already lowercased) link text. -/
def scoreLink (absUrl text : String) : Nat :=
  priority_patterns.foldl
    (fun score q =>
      if patMatch q.1 q.2.1 (strLower absUrl) || patMatch q.1 q.2.1 text then
        score + q.2.2
      else score)
    0

/-- The scored candidates, in enumeration order: every anchor that carries
an href, resolved against the base URL by `uj` (the external
`urllib.parse.urljoin`), kept when its score is positive. -/
def candidatesOf (uj : String → String → String) (url : String)
    (tags : List Tag) : List (Nat × String) :=
  tags.filterMap fun t =>
    if t.name == "a" then
      match t.href with
      | some h =>
        let absUrl := uj url h
        let score := scoreLink absUrl (strLower t.text)
        if 0 < score then some (score, absUrl) else none
      | none => none
    else none

/-- Lexicographic strict comparison of char lists by code point, the order
Python uses on strings (a strict prefix is smaller). -/
def listLtB : List Char → List Char → Bool
  | [], [] => false
  | [], _ :: _ => true
  | _ :: _, [] => false
  | a :: as, b :: bs =>
    if a.toNat < b.toNat then true
    else if b.toNat < a.toNat then false
    else listLtB as bs

/-- Models Python `a < b` on strings. -/
def strLtB (a b : String) : Bool :=
  listLtB a.data b.data

/-- The strict descending order `candidates.sort(reverse=True)` uses on the
`(score, url)` pairs: Python compares tuples lexicographically, so ties in
score are ordered by the URL string. -/
def candGTb (p q : Nat × String) : Bool :=
  decide (q.1 < p.1) || (decide (q.1 = p.1) && strLtB q.2 p.2)

/-- Stable insertion into a descending-sorted list: the new element goes
after every element it does not strictly exceed. -/
def insertDesc (a : Nat × String) : List (Nat × String) → List (Nat × String)
  | [] => [a]
  | y :: ys => if candGTb a y then a :: y :: ys else y :: insertDesc a ys

/-- Stable descending sort, modelling `candidates.sort(reverse=True)`. -/
def sortDesc (l : List (Nat × String)) : List (Nat × String) :=
  l.foldl (fun acc x => insertDesc x acc) []

/-- `_find_download_link` (lines 135-178): sort the positive-score
candidates descending and return the URL of the first, `none` when there is
no candidate.  (The source tests emptiness before sorting; sorting
preserves emptiness, so matching on the sorted list is the same function.) -/
def _find_download_link (uj : String → String → String) (url : String)
    (r : Response) : Option String :=
  match sortDesc (candidatesOf uj url r.tags) with
  | [] => none
  | c :: _ => some c.2

/-! ## Filename generation (`_generate_filename`, lines 303-384) -/

/-- One attempt of `re.search(r'filename="?([^"]+)"?', s)` at the current
position: after the literal `filename=`, an optional quote, then a
non-empty maximal run of non-quote characters (the capture group).  When
the optional quote is followed by another quote the group cannot match and
the whole position fails (the regex engine backtracks through the optional
quote and still needs a non-quote character). -/
def cdTryAt (l : List Char) : Option (List Char) :=
  if "filename=".data.isPrefixOf l then
    match l.drop 9 with
    | '"' :: rest =>
      let run := rest.takeWhile (· ≠ '"')
      if run.isEmpty then none else some run
    | rest =>
      let run := rest.takeWhile (· ≠ '"')
      if run.isEmpty then none else some run
  else none

/-- Leftmost match of `re.search(r'filename="?([^"]+)"?', s)`, returning
the capture group. -/
def cdSearch : List Char → Option (List Char)
  | [] => none
  | c :: cs =>
    match cdTryAt (c :: cs) with
    | some g => some g
    | none => cdSearch cs

/-- The Content-Disposition short-circuit of `_generate_filename`
(lines 325-332): when the header contains a `filename=` token and the
regex matches, the capture group is the complete filename. -/
def cdExtract : Option Response → Option String
  | none => none
  | some r =>
    if strHas r.contentDisposition "filename=" then
      (cdSearch r.contentDisposition.data).map fun g => ⟨g⟩
    else none

/-- The callable contract of the injectable extension-routing strategy
(spec section 6): `(url, content_sample_bytes, content_type,
explicit_extension) -> extension_or_none`. -/
def RouterFn : Type :=
  String → List Nat → String → Option String → Option String

/-- Modelled from the spec: the default `aw.routing.ExtensionRouter` is
external to the sources (imported from the `aw` package), so its behavior
is taken from spec section 4.2, stage (1): the explicit hint always wins
when present and not a placeholder.  The remaining stages (URL pattern,
byte signature, content-type sniffing) are an arbitrary residual strategy
`rest`. -/
def specRouter (rest : String → List Nat → String → Option String) : RouterFn :=
  fun url content content_type explicit =>
    match explicit with
    | some e =>
      if _normalize_extension (some e) = none then rest url content content_type
      else some e
    | none => rest url content content_type

/-- `DownloadEngine._generate_filename` (lines 303-384).  `router` is the
engine's extension router (`none` models the fallback when `aw.routing` is
unavailable), `guess` the external `mimetypes.guess_extension`. -/
def _generate_filename (router : Option RouterFn) (guess : String → Option String)
    (url : String) (context : Option String) (response : Option Response)
    (explicit_extension : Option String := none) : String :=
  match cdExtract response with
  | some f => f
  | none =>
    let fromContext : String :=
      match context with
      | some c => if c.isEmpty then "" else _sanitize_filename c
      | none => ""
    let filename : String :=
      if fromContext.isEmpty then
        let stem := pathStem (urlPath url)
        _sanitize_filename (if stem.isEmpty then "download" else stem)
      else fromContext
    let ext1 : Option String :=
      match router with
      | some rt =>
        let content := match response with | some r => r.content.take 100 | none => []
        let content_type := match response with | some r => r.contentType | none => ""
        _normalize_extension (rt url content content_type explicit_extension)
      | none => none
    let ext2 : Option String :=
      match ext1, response with
      | none, some r =>
        _normalize_extension (some (_infer_extension_from_content_type guess r.contentType))
      | _, _ => ext1
    let extension : String :=
      match ext2 with
      | none => (_normalize_extension (some (pathSuffix (urlPath url)))).getD ".bin"
      | some e => e
    if strEndsWith filename extension then filename else filename ++ extension

/-! ## Post-download extension correction (lines 386-472) -/

/-- `DownloadEngine._detect_extension_from_response` (lines 386-424). -/
def _detect_extension_from_response (router : Option RouterFn)
    (guess : String → Option String) (url : String) (response : Option Response)
    (content_sample : List Nat) (explicit_extension : Option String := none) :
    Option String :=
  match response with
  | none => none
  | some r =>
    let content_type := r.contentType
    let ext1 : Option String :=
      match router with
      | some rt => _normalize_extension (rt url content_sample content_type explicit_extension)
      | none => none
    let ext2 : Option String :=
      match ext1 with
      | none =>
        if content_type.isEmpty then none
        else _normalize_extension (some (_infer_extension_from_content_type guess content_type))
      | some _ => ext1
    match ext2 with
    | none => _normalize_extension (some (pathSuffix (urlPath url)))
    | some _ => ext2

/-- The content type named in the correction warning: the Python expression
`content_type or 'unknown'` applied to the header lookup, which yields the
header value when present and non-empty and the literal `unknown`
otherwise. -/
def ctOrUnknown : Option Response → String
  | some r => if r.contentType.isEmpty then "unknown" else r.contentType
  | none => "unknown"

/-- `DownloadEngine._ensure_extension_matches_content` (lines 426-472):
returns the possibly corrected filename and an optional warning. -/
def _ensure_extension_matches_content (router : Option RouterFn)
    (guess : String → Option String) (filename : String) (url : String)
    (response : Option Response) (content_sample : List Nat)
    (user_supplied : Bool) : String × Option String :=
  match _detect_extension_from_response router guess url response content_sample with
  | none => (filename, none)
  | some d =>
    let detected := if strStartsWith d "." then d else "." ++ d
    let current_ext := pathSuffix filename
    if strLower current_ext = strLower detected then (filename, none)
    else if !user_supplied || current_ext.isEmpty
        || PLACEHOLDER_EXTENSIONS.contains (strLower current_ext) then
      let new_filename := pathStem filename ++ detected
      (new_filename,
        some ("Adjusted filename extension to match detected content type ("
          ++ ctOrUnknown response ++ "): " ++ filename ++ " -> " ++ new_filename))
    else (filename, none)

/-! ## Batch download (`download_multiple`, lines 579-618) and the
agent-facing tool surface (`agent.py` lines 196-228, `base.py` lines 66-107) -/

/-- The per-URL result dictionary of `DownloadEngine.download`. -/
structure DlResult where
  path : Option String
  url : String
  warnings : List String
  metadata : List (String × String)
deriving DecidableEq

/-- The per-item failure record built in the `except` branch of
`download_multiple` (lines 608-616). -/
def failureResult (url e : String) : DlResult :=
  { path := none, url := url, warnings := ["Failed: " ++ e], metadata := [] }

/-- The effective context list: `[None] * len(urls)` when no contexts are
given. -/
def ctxList (urls : List String) : Option (List String) → List (Option String)
  | none => List.replicate urls.length none
  | some cs => cs.map some

/-- `DownloadEngine.download_multiple` (lines 579-618).  `dl` is the
engine's single-URL `download` (its network effects abstracted into an
`Except`): a raising download becomes a per-item failure record, and a
context list of the wrong length is a `ValueError` before any download. -/
def download_multiple (dl : String → Option String → Except String DlResult)
    (urls : List String) (contexts : Option (List String)) :
    Except String (List DlResult) :=
  let ctxs := ctxList urls contexts
  if ctxs.length ≠ urls.length then
    Except.error "contexts must be same length as urls"
  else
    Except.ok ((urls.zip ctxs).map fun p =>
      match dl p.1 p.2 with
      | Except.ok r => r
      | Except.error e => failureResult p.1 e)

/-- The payload the agent packs into `data` (agent.py lines 215-221). -/
structure BatchData where
  results : List DlResult
  total : Nat
  successful : Nat
  failed : Nat
deriving DecidableEq

/-- `ToolExecutionResult` (base.py lines 66-107). -/
structure ToolExecutionResult where
  success : Bool
  data : Option BatchData
  message : String
  warnings : List String
  metadata : List (String × String)
deriving DecidableEq

/-- `ToolExecutionResult.success_result` (base.py lines 94-102). -/
def success_result (data : Option BatchData) (message : String) : ToolExecutionResult :=
  { success := true, data := data, message := message, warnings := [], metadata := [] }

/-- `ToolExecutionResult.error_result` (base.py lines 104-107 area). -/
def error_result (message : String) : ToolExecutionResult :=
  { success := false, data := none, message := message, warnings := [], metadata := [] }

/-- `DownloadAgent._download_multiple` (agent.py lines 196-228), with the
engine call abstracted to its outcome `run`: a returning engine call is
packed into a success result whatever the per-item outcomes; only a raised
exception produces an error result. -/
def _download_multiple (run : Except String (List DlResult)) : ToolExecutionResult :=
  match run with
  | Except.ok results =>
    let successful := (results.filter fun r => !(r.path.getD "").isEmpty).length
    let failed := results.length - successful
    let message := "Downloaded " ++ toString successful ++ "/"
      ++ toString results.length ++ " files"
      ++ (if 0 < failed then " (" ++ toString failed ++ " failed)" else "")
    success_result (some ⟨results, results.length, successful, failed⟩) message
  | Except.error e => error_result ("Failed to download files: " ++ e)

/-! ## Generic list lemmas -/

theorem isPrefixOf_append_self (l m : List Char) : l.isPrefixOf (l ++ m) = true := by
  induction l with
  | nil => simp [List.isPrefixOf]
  | cons c cs ih => simpa [List.isPrefixOf] using ih

theorem infixAux_of_isPrefixOf {b s : List Char} (h : b.isPrefixOf s = true) :
    infixAux b s = true := by
  cases s with
  | nil =>
    cases b with
    | nil => rfl
    | cons x xs => simp [List.isPrefixOf] at h
  | cons c cs => simp [infixAux, h]

theorem infixAux_append (a b c : List Char) : infixAux b (a ++ b ++ c) = true := by
  induction a with
  | nil =>
    simp only [List.nil_append]
    exact infixAux_of_isPrefixOf (isPrefixOf_append_self b c)
  | cons x xs ih =>
    have hassoc : (x :: xs) ++ b ++ c = x :: (xs ++ b ++ c) := by simp
    rw [hassoc, infixAux, ih, Bool.or_true]

theorem strHas_mid (a b c : String) : strHas (a ++ b ++ c) b = true := by
  have h := infixAux_append a.data b.data c.data
  simpa [strHas] using h

theorem strEndsWith_append (a b : String) : strEndsWith (a ++ b) b = true := by
  have h := isPrefixOf_append_self b.data.reverse a.data.reverse
  simpa [strEndsWith, List.reverse_append] using h

theorem head?_take {l : List Char} {n : Nat} {c : Char}
    (h : (l.take n).head? = some c) : l.head? = some c := by
  cases l with
  | nil => simp at h
  | cons x xs =>
    cases n with
    | zero => simp at h
    | succ k => simpa using h

theorem head?_dropWhile_not (p : Char → Bool) {l : List Char} {c : Char}
    (h : (l.dropWhile p).head? = some c) : p c = false := by
  induction l with
  | nil => simp at h
  | cons x xs ih =>
    by_cases hx : p x
    · rw [List.dropWhile_cons_of_pos hx] at h
      exact ih h
    · rw [List.dropWhile_cons_of_neg hx] at h
      simp only [List.head?_cons, Option.some.injEq] at h
      rw [← h]
      exact Bool.eq_false_iff.mpr hx

theorem head?_of_prefix {l m : List Char} {c : Char} (hp : l <+: m)
    (h : l.head? = some c) : m.head? = some c := by
  obtain ⟨t, rfl⟩ := hp
  cases l with
  | nil => simp at h
  | cons x xs => simpa using h

theorem dropWhile_eq_self_of_head {p : Char → Bool} {l : List Char}
    (h : ∀ c, l.head? = some c → p c = false) : l.dropWhile p = l := by
  cases l with
  | nil => rfl
  | cons x xs =>
    have := h x (by simp)
    simp [List.dropWhile_cons, this]

/-! ## Sanitizer lemmas -/

theorem mem_replaceForbidden {c : Char} {l : List Char}
    (h : c ∈ replaceForbidden l) : isForbidden c = false := by
  simp only [replaceForbidden, List.mem_map] at h
  obtain ⟨a, -, ha⟩ := h
  by_cases hfa : isForbidden a
  · rw [if_pos hfa] at ha
    rw [← ha]; decide
  · rw [if_neg hfa] at ha
    rw [← ha]
    exact Bool.eq_false_iff.mpr hfa

theorem mem_collapseAux {c : Char} {b : Bool} {l : List Char}
    (h : c ∈ collapseAux b l) (hs : isSpaceUnd c = true) : c = '_' := by
  induction l generalizing b with
  | nil => simp [collapseAux] at h
  | cons x xs ih =>
    by_cases hx : isSpaceUnd x
    · rw [collapseAux, if_pos hx] at h
      cases b with
      | true => exact ih h
      | false =>
        simp only [Bool.false_eq_true, if_false, List.mem_cons] at h
        rcases h with h | h
        · exact h
        · exact ih h
    · rw [collapseAux, if_neg hx] at h
      rcases List.mem_cons.mp h with h | h
      · subst h; exact absurd hs hx
      · exact ih h

theorem collapseAux_head_true {l : List Char} {c : Char}
    (h : (collapseAux true l).head? = some c) : isSpaceUnd c = false := by
  induction l with
  | nil => simp [collapseAux] at h
  | cons x xs ih =>
    by_cases hx : isSpaceUnd x
    · rw [collapseAux, if_pos hx, if_pos rfl] at h
      exact ih h
    · rw [collapseAux, if_neg hx] at h
      simp only [List.head?_cons, Option.some.injEq] at h
      rw [← h]
      exact Bool.eq_false_iff.mpr hx

/-- No two adjacent characters of the collapsed output are both
whitespace-or-underscore. -/
def noAdjacent (a b : Char) : Prop :=
  ¬(isSpaceUnd a = true ∧ isSpaceUnd b = true)

theorem collapseAux_chain (b : Bool) (l : List Char) :
    List.Chain' noAdjacent (collapseAux b l) := by
  induction l generalizing b with
  | nil => simp [collapseAux]
  | cons x xs ih =>
    by_cases hx : isSpaceUnd x
    · rw [collapseAux, if_pos hx]
      cases b with
      | true => simpa using ih true
      | false =>
        simp only [Bool.false_eq_true, if_false]
        rw [List.chain'_cons']
        refine ⟨?_, ih true⟩
        intro y hy
        have := collapseAux_head_true (l := xs) (c := y)
        intro hcon
        exact absurd (this (by simpa using hy)) (by simp [hcon.2])
    · rw [collapseAux, if_neg hx]
      rw [List.chain'_cons']
      refine ⟨?_, ih false⟩
      intro y hy
      intro hcon
      exact absurd hcon.1 (by simp [hx])

theorem mem_collapseAux_orig {c : Char} {b : Bool} {l : List Char}
    (h : c ∈ collapseAux b l) : c = '_' ∨ c ∈ l := by
  induction l generalizing b with
  | nil => simp [collapseAux] at h
  | cons x xs ih =>
    by_cases hx : isSpaceUnd x
    · rw [collapseAux, if_pos hx] at h
      cases b with
      | true =>
        rcases ih h with h | h
        · exact Or.inl h
        · exact Or.inr (List.mem_cons_of_mem _ h)
      | false =>
        simp only [Bool.false_eq_true, if_false, List.mem_cons] at h
        rcases h with h | h
        · exact Or.inl h
        · rcases ih h with h | h
          · exact Or.inl h
          · exact Or.inr (List.mem_cons_of_mem _ h)
    · rw [collapseAux, if_neg hx] at h
      rcases List.mem_cons.mp h with h | h
      · exact Or.inr (h ▸ List.mem_cons_self _ _)
      · rcases ih h with h | h
        · exact Or.inl h
        · exact Or.inr (List.mem_cons_of_mem _ h)

theorem stripUnderscores_prefix_dropWhile (l : List Char) :
    stripUnderscores l <+: l.dropWhile (· == '_') := by
  refine ⟨((l.dropWhile (· == '_')).reverse.takeWhile (· == '_')).reverse, ?_⟩
  show ((l.dropWhile (· == '_')).reverse.dropWhile (· == '_')).reverse ++ _ = _
  rw [← List.reverse_append, List.takeWhile_append_dropWhile, List.reverse_reverse]

theorem mem_stripUnderscores {c : Char} {l : List Char}
    (h : c ∈ stripUnderscores l) : c ∈ l := by
  have h1 := (stripUnderscores_prefix_dropWhile l).subset h
  exact (List.dropWhile_suffix (· == '_')).subset h1

theorem head?_stripUnderscores {l : List Char} {c : Char}
    (h : (stripUnderscores l).head? = some c) : (c == '_') = false := by
  have h1 := head?_of_prefix (stripUnderscores_prefix_dropWhile l) h
  exact head?_dropWhile_not (fun x => x == '_') h1

theorem getLast?_stripUnderscores {l : List Char} {c : Char}
    (h : (stripUnderscores l).getLast? = some c) : (c == '_') = false := by
  have h1 : (stripUnderscores l).reverse.head? = some c := by
    rw [List.head?_reverse]; exact h
  unfold stripUnderscores at h1
  rw [List.reverse_reverse] at h1
  exact head?_dropWhile_not (fun x => x == '_') h1

theorem chain'_stripUnderscores {l : List Char}
    (h : List.Chain' noAdjacent l) : List.Chain' noAdjacent (stripUnderscores l) := by
  have h1 : List.Chain' noAdjacent (l.dropWhile (· == '_')) :=
    h.suffix (List.dropWhile_suffix (· == '_'))
  exact h1.prefix (stripUnderscores_prefix_dropWhile l)

theorem sanitizeList_mem_not_forbidden {c : Char} {l : List Char} {m : Nat}
    (h : c ∈ sanitizeList l m) : isForbidden c = false := by
  have h1 : c ∈ stripUnderscores (collapseAux false (replaceForbidden l)) :=
    List.mem_of_mem_take h
  have h2 : c ∈ collapseAux false (replaceForbidden l) := mem_stripUnderscores h1
  rcases mem_collapseAux_orig h2 with h3 | h3
  · rw [h3]; decide
  · exact mem_replaceForbidden h3

theorem sanitizeList_head {l : List Char} {m : Nat} {c : Char}
    (h : (sanitizeList l m).head? = some c) : c ≠ '_' := by
  have h1 := head?_take h
  have h2 := head?_stripUnderscores h1
  simpa using h2

theorem sanitizeList_length (l : List Char) (m : Nat) :
    (sanitizeList l m).length ≤ m := by
  unfold sanitizeList
  rw [List.length_take]
  exact Nat.min_le_left _ _

theorem sanitizeList_getLast_no_trunc {l : List Char} {m : Nat} {c : Char}
    (hlen : (stripUnderscores (collapseAux false (replaceForbidden l))).length ≤ m)
    (h : (sanitizeList l m).getLast? = some c) : c ≠ '_' := by
  unfold sanitizeList at h
  rw [List.take_of_length_le hlen] at h
  have h2 := getLast?_stripUnderscores h
  simpa using h2

theorem sanitizeList_chain (l : List Char) (m : Nat) :
    List.Chain' noAdjacent (sanitizeList l m) := by
  have h1 := collapseAux_chain false (replaceForbidden l)
  have h2 := chain'_stripUnderscores h1
  exact h2.prefix (List.take_prefix m _)

theorem sanitizeList_mem_spaceUnd {c : Char} {l : List Char} {m : Nat}
    (h : c ∈ sanitizeList l m) (hs : isSpaceUnd c = true) : c = '_' := by
  have h1 : c ∈ stripUnderscores (collapseAux false (replaceForbidden l)) :=
    List.mem_of_mem_take h
  exact mem_collapseAux (mem_stripUnderscores h1) hs

/-! ### Idempotence of the sanitizer on already-clean strings -/

theorem map_id_of_mem {f : Char → Char} {l : List Char}
    (h : ∀ c ∈ l, f c = c) : l.map f = l := by
  induction l with
  | nil => rfl
  | cons x xs ih =>
    rw [List.map_cons, h x (List.mem_cons_self _ _), ih fun c hc => h c (List.mem_cons_of_mem _ hc)]

theorem collapseAux_true_eq_false {l : List Char}
    (h : ∀ c, l.head? = some c → isSpaceUnd c = false) :
    collapseAux true l = collapseAux false l := by
  cases l with
  | nil => rfl
  | cons x xs =>
    have hx := h x (by simp)
    rw [collapseAux, collapseAux, if_neg (by simp [hx]), if_neg (by simp [hx])]

theorem collapseAux_id {l : List Char}
    (hmem : ∀ c ∈ l, isSpaceUnd c = true → c = '_')
    (hch : List.Chain' noAdjacent l) :
    collapseAux false l = l := by
  induction l with
  | nil => rfl
  | cons x xs ih =>
    have hch' : List.Chain' noAdjacent xs := (List.chain'_cons'.mp hch).2
    have hmem' : ∀ c ∈ xs, isSpaceUnd c = true → c = '_' :=
      fun c hc => hmem c (List.mem_cons_of_mem _ hc)
    by_cases hx : isSpaceUnd x = true
    · have hxu : x = '_' := hmem x (List.mem_cons_self _ _) hx
      rw [collapseAux, if_pos hx]
      simp only [Bool.false_eq_true, if_false]
      have hhd : ∀ c, xs.head? = some c → isSpaceUnd c = false := by
        intro c hc
        have := (List.chain'_cons'.mp hch).1 c hc
        unfold noAdjacent at this
        by_cases hcs : isSpaceUnd c = true
        · exact absurd ⟨hx, hcs⟩ this
        · exact Bool.eq_false_iff.mpr hcs
      rw [collapseAux_true_eq_false hhd, ih hmem' hch', hxu]
    · rw [collapseAux, if_neg hx, ih hmem' hch']

theorem stripUnderscores_id {l : List Char}
    (hhd : ∀ c, l.head? = some c → c ≠ '_')
    (hlast : ∀ c, l.getLast? = some c → c ≠ '_') :
    stripUnderscores l = l := by
  have h1 : l.dropWhile (· == '_') = l := by
    apply dropWhile_eq_self_of_head
    intro c hc
    simpa using hhd c hc
  unfold stripUnderscores
  rw [h1]
  have h2 : l.reverse.dropWhile (· == '_') = l.reverse := by
    apply dropWhile_eq_self_of_head
    intro c hc
    rw [List.head?_reverse] at hc
    simpa using hlast c hc
  rw [h2, List.reverse_reverse]

theorem sanitizeList_idem {l : List Char} {m : Nat}
    (hlast : ∀ c, (sanitizeList l m).getLast? = some c → c ≠ '_') :
    sanitizeList (sanitizeList l m) m = sanitizeList l m := by
  set t := sanitizeList l m with ht
  have hrep : replaceForbidden t = t := by
    apply map_id_of_mem
    intro c hc
    rw [if_neg (by simp [sanitizeList_mem_not_forbidden (ht ▸ hc)])]
  have hcol : collapseAux false t = t := by
    apply collapseAux_id
    · intro c hc hs
      exact sanitizeList_mem_spaceUnd (ht ▸ hc) hs
    · exact ht ▸ sanitizeList_chain l m
  have hstr : stripUnderscores t = t := by
    apply stripUnderscores_id
    · intro c hc
      exact sanitizeList_head (ht ▸ hc)
    · intro c hc
      exact hlast c (ht ▸ hc)
  have hlen : t.length ≤ m := ht ▸ sanitizeList_length l m
  unfold sanitizeList
  rw [hrep, hcol, hstr, List.take_of_length_le hlen]

/-! ## Order lemmas for the candidate sort -/

theorem charToNat_inj {a b : Char} (h : a.toNat = b.toNat) : a = b := by
  have := Char.ofNat_toNat a
  rw [h, Char.ofNat_toNat b] at this
  exact this.symm

theorem listLtB_asymm : ∀ {a b : List Char},
    listLtB a b = true → listLtB b a = false
  | [], [], h => by simp [listLtB] at h
  | [], _ :: _, _ => by simp [listLtB]
  | _ :: _, [], h => by simp [listLtB] at h
  | a :: as, b :: bs, h => by
    by_cases hab : a.toNat < b.toNat
    · rw [listLtB, if_neg (by omega : ¬ b.toNat < a.toNat), if_pos hab]
    · by_cases hba : b.toNat < a.toNat
      · rw [listLtB, if_neg hab, if_pos hba] at h
        simp at h
      · rw [listLtB, if_neg hab, if_neg hba] at h
        rw [listLtB, if_neg hba, if_neg hab]
        exact listLtB_asymm h

theorem listLtB_trans : ∀ {a b c : List Char},
    listLtB a b = true → listLtB b c = true → listLtB a c = true
  | [], [], _, h1, _ => by simp [listLtB] at h1
  | [], _ :: _, [], _, h2 => by simp [listLtB] at h2
  | [], _ :: _, _ :: _, _, _ => by simp [listLtB]
  | _ :: _, [], _, h1, _ => by simp [listLtB] at h1
  | _ :: _, _ :: _, [], _, h2 => by simp [listLtB] at h2
  | a :: as, b :: bs, c :: cs, h1, h2 => by
    rw [listLtB] at h1 h2 ⊢
    by_cases hab : a.toNat < b.toNat
    · by_cases hbc : b.toNat < c.toNat
      · rw [if_pos (Nat.lt_trans hab hbc)]
      · by_cases hcb : c.toNat < b.toNat
        · rw [if_neg hbc, if_pos hcb] at h2
          simp at h2
        · have hbceq : b.toNat = c.toNat := by omega
          rw [if_pos (hbceq ▸ hab)]
    · by_cases hba : b.toNat < a.toNat
      · rw [if_neg hab, if_pos hba] at h1
        simp at h1
      · have habeq : a.toNat = b.toNat := by omega
        rw [if_neg hab, if_neg hba] at h1
        by_cases hbc : b.toNat < c.toNat
        · rw [if_pos (habeq ▸ hbc)]
        · by_cases hcb : c.toNat < b.toNat
          · rw [if_neg hbc, if_pos hcb] at h2
            simp at h2
          · have hac : ¬ a.toNat < c.toNat := by omega
            have hca : ¬ c.toNat < a.toNat := by omega
            rw [if_neg hbc, if_neg hcb] at h2
            rw [if_neg hac, if_neg hca]
            exact listLtB_trans h1 h2

theorem listLtB_conn : ∀ {a b : List Char},
    listLtB a b = false → listLtB b a = false → a = b
  | [], [], _, _ => rfl
  | [], _ :: _, h1, _ => by simp [listLtB] at h1
  | _ :: _, [], _, h2 => by simp [listLtB] at h2
  | a :: as, b :: bs, h1, h2 => by
    rw [listLtB] at h1 h2
    by_cases hab : a.toNat < b.toNat
    · rw [if_pos hab] at h1
      simp at h1
    · by_cases hba : b.toNat < a.toNat
      · rw [if_pos hba] at h2
        simp at h2
      · have heq : a = b := charToNat_inj (by omega)
        rw [if_neg hab, if_neg hba] at h1
        rw [if_neg hba, if_neg hab] at h2
        rw [heq, listLtB_conn h1 h2]

theorem candGTb_asymm {p q : Nat × String} (h : candGTb p q = true) :
    candGTb q p = false := by
  simp only [candGTb, Bool.or_eq_true, Bool.and_eq_true, decide_eq_true_iff] at h
  simp only [candGTb, Bool.or_eq_false_iff, Bool.and_eq_false_iff,
    decide_eq_false_iff_not]
  rcases h with h | ⟨h1, h2⟩
  · exact ⟨by omega, Or.inl (by omega)⟩
  · refine ⟨by omega, Or.inr ?_⟩
    exact listLtB_asymm h2

theorem candGTb_trans {p q r : Nat × String} (h1 : candGTb p q = true)
    (h2 : candGTb q r = true) : candGTb p r = true := by
  simp only [candGTb, Bool.or_eq_true, Bool.and_eq_true, decide_eq_true_iff] at h1 h2 ⊢
  rcases h1 with h1 | ⟨h1a, h1b⟩
  · rcases h2 with h2 | ⟨h2a, h2b⟩
    · exact Or.inl (by omega)
    · exact Or.inl (by omega)
  · rcases h2 with h2 | ⟨h2a, h2b⟩
    · exact Or.inl (by omega)
    · exact Or.inr ⟨by omega, listLtB_trans h2b h1b⟩

theorem mem_insertDesc {x a : Nat × String} {l : List (Nat × String)} :
    x ∈ insertDesc a l ↔ x = a ∨ x ∈ l := by
  induction l with
  | nil => simp [insertDesc]
  | cons y ys ih =>
    by_cases h : candGTb a y = true
    · simp [insertDesc, if_pos h]
    · rw [insertDesc, if_neg h]
      simp only [List.mem_cons, ih]
      tauto

/-- Sortedness used by the model sort: each element is not strictly below
any later element. -/
def sortedDesc (l : List (Nat × String)) : Prop :=
  l.Pairwise fun p q => candGTb q p = false

theorem sortedDesc_insertDesc {a : Nat × String} {l : List (Nat × String)}
    (h : sortedDesc l) : sortedDesc (insertDesc a l) := by
  induction l with
  | nil => simp [insertDesc, sortedDesc]
  | cons y ys ih =>
    rcases List.pairwise_cons.mp h with ⟨hy, hys⟩
    by_cases hgt : candGTb a y = true
    · rw [insertDesc, if_pos hgt]
      refine List.pairwise_cons.mpr ⟨?_, h⟩
      intro z hz
      rcases List.mem_cons.mp hz with hz | hz
      · exact hz ▸ candGTb_asymm hgt
      · by_cases hza : candGTb z a = true
        · exact absurd (candGTb_trans hza hgt) (by simp [hy z hz])
        · exact Bool.eq_false_iff.mpr hza
    · rw [insertDesc, if_neg hgt]
      refine List.pairwise_cons.mpr ⟨?_, ih hys⟩
      intro z hz
      rcases mem_insertDesc.mp hz with hz | hz
      · exact hz ▸ Bool.eq_false_iff.mpr hgt
      · exact hy z hz

theorem mem_sortDesc {x : Nat × String} {l : List (Nat × String)} :
    x ∈ sortDesc l ↔ x ∈ l := by
  suffices h : ∀ acc, x ∈ l.foldl (fun acc y => insertDesc y acc) acc ↔ x ∈ acc ∨ x ∈ l by
    have := h []
    simpa [sortDesc] using this
  induction l with
  | nil => intro acc; simp
  | cons y ys ih =>
    intro acc
    simp only [List.foldl_cons, ih, mem_insertDesc, List.mem_cons]
    tauto

theorem sortedDesc_sortDesc (l : List (Nat × String)) : sortedDesc (sortDesc l) := by
  suffices h : ∀ acc, sortedDesc acc → sortedDesc (l.foldl (fun acc y => insertDesc y acc) acc) by
    exact h [] (by simp [sortedDesc])
  induction l with
  | nil => intro acc hacc; exact hacc
  | cons y ys ih =>
    intro acc hacc
    exact ih _ (sortedDesc_insertDesc hacc)

theorem not_candGTb_elim {q c : Nat × String} (h : candGTb q c = false) :
    q.1 < c.1 ∨ (q.1 = c.1 ∧ (q.2 = c.2 ∨ strLtB q.2 c.2 = true)) := by
  simp only [candGTb, Bool.or_eq_false_iff, Bool.and_eq_false_iff,
    decide_eq_false_iff_not] at h
  obtain ⟨h1, h2⟩ := h
  by_cases hlt : q.1 < c.1
  · exact Or.inl hlt
  · have heq : q.1 = c.1 := by omega
    refine Or.inr ⟨heq, ?_⟩
    rcases h2 with h2 | h2
    · exact absurd heq.symm h2
    · by_cases hq : strLtB q.2 c.2 = true
      · exact Or.inr hq
      · exact Or.inl (congrArg String.mk
          (listLtB_conn (Bool.eq_false_iff.mpr hq) h2))

theorem candidatesOf_pos {uj : String → String → String} {url : String}
    {tags : List Tag} {s : Nat} {u : String}
    (h : (s, u) ∈ candidatesOf uj url tags) : 0 < s := by
  simp only [candidatesOf, List.mem_filterMap] at h
  obtain ⟨t, -, hf⟩ := h
  by_cases hn : t.name == "a"
  · rw [if_pos hn] at hf
    cases hhref : t.href with
    | none => rw [hhref] at hf; simp at hf
    | some hr =>
      rw [hhref] at hf
      simp only at hf
      by_cases hs : 0 < scoreLink (uj url hr) (strLower t.text)
      · rw [if_pos hs] at hf
        cases hf
        exact hs
      · rw [if_neg hs] at hf
        simp at hf
  · rw [if_neg hn] at hf
    simp at hf

theorem candidatesOf_eq_nil_iff {uj : String → String → String} {url : String}
    {tags : List Tag} :
    candidatesOf uj url tags = [] ↔
      ∀ t ∈ tags, t.name = "a" → ∀ h, t.href = some h →
        scoreLink (uj url h) (strLower t.text) = 0 := by
  rw [candidatesOf, List.filterMap_eq_nil_iff]
  constructor
  · intro hnil t ht hname h hhref
    have := hnil t ht
    rw [if_pos (by simp [hname]), hhref] at this
    simp only at this
    by_cases hs : 0 < scoreLink (uj url h) (strLower t.text)
    · rw [if_pos hs] at this; simp at this
    · omega
  · intro hall t ht
    by_cases hn : t.name == "a"
    · rw [if_pos hn]
      cases hhref : t.href with
      | none => simp
      | some h =>
        simp only
        have := hall t ht (by simpa using hn) h hhref
        rw [if_neg (by omega)]
    · rw [if_neg hn]

theorem sortDesc_eq_nil_iff {l : List (Nat × String)} :
    sortDesc l = [] ↔ l = [] := by
  constructor
  · intro h
    by_contra hne
    obtain ⟨x, hx⟩ := List.exists_mem_of_ne_nil l hne
    have := mem_sortDesc.mpr hx
    rw [h] at this
    simp at this
  · intro h
    rw [h]
    rfl

/-! ## Concrete fixtures used by witnesses and counterexamples -/

/-- A join function agreeing with `urllib.parse.urljoin` for a base URL
ending in a slash and a relative href. -/
def ujConcat : String → String → String := fun base h => base ++ h

/-- A landing page with a pdf link labelled Download and a zip link. -/
def landingPage : Response :=
  ⟨"text/html", "", [],
    [⟨"a", "Download", some "paper.pdf"⟩, ⟨"a", "get", some "x.zip"⟩]⟩

/-- A landing page with two links of equal score enumerated a.pdf first. -/
def tiePage : Response :=
  ⟨"text/html", "", [], [⟨"a", "x", some "a.pdf"⟩, ⟨"a", "y", some "b.pdf"⟩]⟩

/-- A routing strategy whose residual stages never claim a match. -/
def restNone : String → List Nat → String → Option String := fun _ _ _ => none

/-- A `mimetypes.guess_extension` that knows no type. -/
def guessNone : String → Option String := fun _ => none

/-! ## Claims -/

/-- C1 (amended): `_find_download_link` enumerates every anchor that has an
href, resolves it against the base URL, scores it by the fixed weights,
excludes score-zero candidates, and returns none exactly when every anchor
scores zero.  Among the positive candidates it returns one of top score,
but a tie in score is broken by the descending lexicographic order of the
absolute URL (the code sorts the `(score, url)` pairs with reverse=True, so
the URL string is the secondary sort key), not by enumeration order. -/
theorem find_download_link_best (uj : String → String → String) (url : String)
    (r : Response) :
    (_find_download_link uj url r = none ↔ candidatesOf uj url r.tags = []) ∧
    (∀ u, _find_download_link uj url r = some u →
      ∃ s, (s, u) ∈ candidatesOf uj url r.tags ∧ 0 < s ∧
        ∀ q ∈ candidatesOf uj url r.tags,
          q.1 < s ∨ (q.1 = s ∧ (q.2 = u ∨ strLtB q.2 u = true))) ∧
    (candidatesOf uj url r.tags = [] ↔
      ∀ t ∈ r.tags, t.name = "a" → ∀ h, t.href = some h →
        scoreLink (uj url h) (strLower t.text) = 0) := by
  refine ⟨?_, ?_, candidatesOf_eq_nil_iff⟩
  · unfold _find_download_link
    cases hs : sortDesc (candidatesOf uj url r.tags) with
    | nil =>
      simp only
      constructor
      · intro _; exact sortDesc_eq_nil_iff.mp hs
      · intro _; trivial
    | cons c rest =>
      simp only
      constructor
      · intro hcon; exact absurd hcon (by simp)
      · intro hcon
        have := sortDesc_eq_nil_iff.mpr hcon
        rw [this] at hs
        exact absurd hs (by simp)
  · intro u hu
    unfold _find_download_link at hu
    cases hs : sortDesc (candidatesOf uj url r.tags) with
    | nil => rw [hs] at hu; simp at hu
    | cons c rest =>
      rw [hs] at hu
      simp only [Option.some.injEq] at hu
      have hcmem : c ∈ candidatesOf uj url r.tags :=
        mem_sortDesc.mp (hs ▸ List.mem_cons_self c rest)
      have hcu : (c.1, u) = c := by rw [← hu]
      refine ⟨c.1, hcu ▸ hcmem, candidatesOf_pos (hcu ▸ hcmem), ?_⟩
      intro q hq
      have hqsort : q ∈ sortDesc (candidatesOf uj url r.tags) := mem_sortDesc.mpr hq
      rw [hs] at hqsort
      rcases List.mem_cons.mp hqsort with hqc | hqrest
      · exact Or.inr ⟨by rw [hqc], Or.inl (by rw [hqc, hu])⟩
      · have hsorted := sortedDesc_sortDesc (candidatesOf uj url r.tags)
        rw [hs] at hsorted
        have hfalse := (List.pairwise_cons.mp hsorted).1 q hqrest
        rcases not_candGTb_elim hfalse with h | ⟨h1, h2⟩
        · exact Or.inl h
        · exact Or.inr ⟨h1, by rw [← hu]; exact h2⟩

/-- Witness for C1: on a landing page with a `paper.pdf` anchor labelled
Download (score 18) and an `x.zip` anchor (score 7), the pdf link is
returned and dominates every candidate. -/
theorem find_download_link_best_witness :
    ∃ s, (s, "http://x/paper.pdf") ∈ candidatesOf ujConcat "http://x/" landingPage.tags ∧
      0 < s ∧
      ∀ q ∈ candidatesOf ujConcat "http://x/" landingPage.tags,
        q.1 < s ∨ (q.1 = s ∧ (q.2 = "http://x/paper.pdf" ∨ strLtB q.2 "http://x/paper.pdf" = true)) :=
  (find_download_link_best ujConcat "http://x/" landingPage).2.1
    "http://x/paper.pdf" (by decide)

/-- Counterexample for C1 as stated: two anchors tie at score 10, the
first enumerated resolves to `http://x/a.pdf`, yet the function returns
`http://x/b.pdf` (the lexicographically larger URL), not the
first-enumerated link among the equal top scores. -/
theorem find_download_link_tie_counterexample :
    candidatesOf ujConcat "http://x/" tiePage.tags =
      [(10, "http://x/a.pdf"), (10, "http://x/b.pdf")] ∧
    _find_download_link ujConcat "http://x/" tiePage = some "http://x/b.pdf" ∧
    _find_download_link ujConcat "http://x/" tiePage ≠ some "http://x/a.pdf" :=
  ⟨by decide, by decide, by decide⟩

/-- An HTML response whose body is exactly 1,000,000 bytes, with a
keyword-matching anchor. -/
def bigHtmlPage : Response :=
  ⟨"text/html", "", List.replicate 1000000 0, [⟨"a", "Download", some "file.pdf"⟩]⟩

/-- C2 (amended): `_is_likely_landing_page` returns true only if the
content type contains text/html, the body size is at most 1,000,000 bytes,
and some anchor or button matches one of the fixed patterns; and it returns
false for every body strictly larger than 1,000,000 bytes.  (The source
compares with a strict `>`, so a body of exactly 1,000,000 bytes still
passes the size check.) -/
theorem landing_page_characterization (r : Response) :
    (_is_likely_landing_page r = true →
      strHas (strLower r.contentType) "text/html" = true ∧
      r.content.length ≤ 1000000 ∧
      ∃ t ∈ r.tags, (t.name = "a" ∨ t.name = "button") ∧
        ∃ p ∈ download_patterns,
          (strHas (strLower t.text) p = true ∨
            strHas (strLower (t.href.getD "")) p = true)) ∧
    (1000000 < r.content.length → _is_likely_landing_page r = false) := by
  constructor
  · intro h
    unfold _is_likely_landing_page at h
    by_cases h1 : strHas (strLower r.contentType) "text/html" = true
    · rw [if_neg (by simp [h1])] at h
      by_cases h2 : 1000000 < r.content.length
      · rw [if_pos h2] at h
        simp at h
      · rw [if_neg h2] at h
        refine ⟨h1, by omega, ?_⟩
        rw [List.any_eq_true] at h
        obtain ⟨t, ht, hp⟩ := h
        rw [List.mem_filter] at ht
        obtain ⟨htags, hname⟩ := ht
        rw [List.any_eq_true] at hp
        obtain ⟨p, hpmem, hmatch⟩ := hp
        refine ⟨t, htags, ?_, p, hpmem, ?_⟩
        · rcases Bool.or_eq_true_iff.mp hname with hn | hn
          · exact Or.inl (by simpa using hn)
          · exact Or.inr (by simpa using hn)
        · exact Bool.or_eq_true_iff.mp hmatch
    · rw [if_pos (by simp [Bool.eq_false_iff.mpr h1])] at h
      simp at h
  · intro h2
    unfold _is_likely_landing_page
    by_cases h1 : strHas (strLower r.contentType) "text/html" = true
    · rw [if_neg (by simp [h1]), if_pos h2]
    · rw [if_pos (by simp [Bool.eq_false_iff.mpr h1])]

/-- Witness for C2: a small HTML landing page with a Download anchor
satisfies all three conditions of the characterization. -/
theorem landing_page_characterization_witness :
    strHas (strLower landingPage.contentType) "text/html" = true ∧
    landingPage.content.length ≤ 1000000 ∧
    ∃ t ∈ landingPage.tags, (t.name = "a" ∨ t.name = "button") ∧
      ∃ p ∈ download_patterns,
        (strHas (strLower t.text) p = true ∨
          strHas (strLower (t.href.getD "")) p = true) :=
  (landing_page_characterization landingPage).1 (by decide)

/-- Counterexample for C2 as stated: an HTML body of exactly 1,000,000
bytes (not below the bound) with a matching anchor is still classified as a
landing page, contradicting the claim that every body of at least
1,000,000 bytes yields false. -/
theorem landing_page_size_counterexample :
    bigHtmlPage.content.length = 1000000 ∧
    _is_likely_landing_page bigHtmlPage = true := by
  have hlen : bigHtmlPage.content.length = 1000000 := by
    show (List.replicate 1000000 (0 : Nat)).length = 1000000
    exact List.length_replicate 1000000 0
  refine ⟨hlen, ?_⟩
  unfold _is_likely_landing_page
  rw [hlen]
  decide

/-- Appending the extension, as the tail of `_generate_filename` does,
always leaves a string that ends in that extension. -/
theorem endsWith_pad (fn ext : String) :
    strEndsWith (if strEndsWith fn ext then fn else fn ++ ext) ext = true := by
  by_cases h : strEndsWith fn ext = true
  · rw [if_pos h]; exact h
  · rw [if_neg h]; exact strEndsWith_append fn ext

/-- C3 (amended): with the default (spec-modelled) router, an explicit
extension hint that is present and not a placeholder determines the
extension of the generated filename, overriding every URL-suffix and
content-type signal, in every case where the response does not carry an
extractable Content-Disposition filename (that header short-circuits
filename generation entirely, before any extension logic runs). -/
theorem explicit_extension_priority
    (rest : String → List Nat → String → Option String)
    (guess : String → Option String) (url : String) (context : Option String)
    (response : Option Response) (e ne : String)
    (hnorm : _normalize_extension (some e) = some ne)
    (hcd : cdExtract response = none) :
    strEndsWith
      (_generate_filename (some (specRouter rest)) guess url context response (some e))
      ne = true := by
  have hne : ¬ _normalize_extension (some e) = none := by
    rw [hnorm]; exact fun hcon => Option.noConfusion hcon
  unfold _generate_filename
  rw [hcd]
  simp only [specRouter]
  rw [if_neg hne, hnorm]
  cases response with
  | none =>
    simp only
    exact endsWith_pad _ _
  | some r =>
    simp only
    exact endsWith_pad _ _

/-- Witness for C3: the concrete instance of the spec,
url `https://example.com/file.txt`, context `MyFile`,
explicit_extension `json`, yields `MyFile.json`. -/
theorem explicit_extension_priority_witness :
    _generate_filename (some (specRouter restNone)) guessNone
      "https://example.com/file.txt" (some "MyFile") none (some "json") =
      "MyFile.json" ∧
    strEndsWith
      (_generate_filename (some (specRouter restNone)) guessNone
        "https://example.com/file.txt" (some "MyFile") none (some "json"))
      ".json" = true :=
  ⟨by decide,
    explicit_extension_priority restNone guessNone "https://example.com/file.txt"
      (some "MyFile") none "json" ".json" (by decide) (by decide)⟩

/-- A response whose Content-Disposition carries the filename notes.txt. -/
def cdResponse : Response :=
  ⟨"", "attachment; filename=\"notes.txt\"", [], []⟩

/-- Counterexample for C3 as stated: the explicit hint `json` is present
and not a placeholder, yet with a Content-Disposition filename in the
response the result is `notes.txt`, whose extension is not `.json` — the
hint does not determine the extension for every input. -/
theorem explicit_extension_counterexample :
    _normalize_extension (some "json") = some ".json" ∧
    _generate_filename (some (specRouter restNone)) guessNone
      "https://example.com/file.txt" (some "MyFile") (some cdResponse)
      (some "json") = "notes.txt" ∧
    strEndsWith "notes.txt" ".json" = false :=
  ⟨by decide, by decide, by decide⟩

/-- C4 (amended): whenever the regex `filename="?([^"]+)"?` matches the
Content-Disposition header (the header contains `filename=` followed by a
non-empty quote-free value), `_generate_filename` returns the captured
value verbatim as the complete filename: no sanitization, no extension
resolution, regardless of router, context, URL or explicit hint. -/
theorem content_disposition_verbatim (router : Option RouterFn)
    (guess : String → Option String) (url : String) (context : Option String)
    (r : Response) (explicit_extension : Option String) (f : String)
    (hcd : cdExtract (some r) = some f) :
    _generate_filename router guess url context (some r) explicit_extension = f := by
  unfold _generate_filename
  rw [hcd]

/-- Witness for C4: a header `attachment; filename="notes.txt"` makes the
generator return `notes.txt` even though a context is supplied. -/
theorem content_disposition_verbatim_witness :
    _generate_filename none guessNone "https://example.com/doc" (some "MyDoc")
      (some cdResponse) none = "notes.txt" :=
  content_disposition_verbatim none guessNone "https://example.com/doc"
    (some "MyDoc") cdResponse none "notes.txt" (by decide)

/-- A response whose Content-Disposition contains a `filename=` token with
an empty quoted value. -/
def emptyCdResponse : Response :=
  ⟨"", "attachment; filename=\"\"", [], []⟩

/-- Counterexample for C4 as stated: the header contains a `filename=`
token, but with the empty quoted value the regex cannot match, so the
generator falls through to the context and extension logic and returns
`MyDoc.bin` instead of any header value. -/
theorem content_disposition_counterexample :
    strHas emptyCdResponse.contentDisposition "filename=" = true ∧
    cdExtract (some emptyCdResponse) = none ∧
    _generate_filename none guessNone "https://example.com/doc" (some "MyDoc")
      (some emptyCdResponse) none = "MyDoc.bin" :=
  ⟨by decide, by decide, by decide⟩


/-- The constructed warning string contains the content-type segment. -/
theorem strHas_warning (a b r1 r2 r3 r4 : String) :
    strHas (a ++ b ++ r1 ++ r2 ++ r3 ++ r4) b = true := by
  simp only [strHas, String.data_append]
  have h := infixAux_append a.data b.data (r1.data ++ (r2.data ++ (r3.data ++ r4.data)))
  simpa [List.append_assoc] using h

/-- C5: in the post-download second pass, a user-supplied filename whose
current extension is non-empty and not a placeholder is always returned
unchanged with no warning; the filename changes only when the extension was
not user-supplied, or empty, or a placeholder; no warning means no change;
and every emitted warning names the detected content type (or `unknown`
when the response carries none). -/
theorem ensure_extension_replacement_policy (router : Option RouterFn)
    (guess : String → Option String) (filename url : String)
    (response : Option Response) (sample : List Nat) (user : Bool) :
    (user = true → (pathSuffix filename).isEmpty = false →
      PLACEHOLDER_EXTENSIONS.contains (strLower (pathSuffix filename)) = false →
      _ensure_extension_matches_content router guess filename url response sample user
        = (filename, none)) ∧
    ((_ensure_extension_matches_content router guess filename url response sample user).1
        ≠ filename →
      user = false ∨ (pathSuffix filename).isEmpty = true ∨
        PLACEHOLDER_EXTENSIONS.contains (strLower (pathSuffix filename)) = true) ∧
    ((_ensure_extension_matches_content router guess filename url response sample user).2
        = none →
      (_ensure_extension_matches_content router guess filename url response sample user).1
        = filename) ∧
    (∀ w,
      (_ensure_extension_matches_content router guess filename url response sample user).2
        = some w →
      strHas w (ctOrUnknown response) = true) := by
  cases hd : _detect_extension_from_response router guess url response sample with
  | none =>
    unfold _ensure_extension_matches_content
    rw [hd]
    refine ⟨fun _ _ _ => rfl, fun hcon => absurd rfl hcon, fun _ => rfl, ?_⟩
    intro w hw
    simp at hw
  | some d =>
    unfold _ensure_extension_matches_content
    rw [hd]
    simp only
    by_cases heq : strLower (pathSuffix filename)
        = strLower (if strStartsWith d "." then d else "." ++ d)
    · rw [if_pos heq]
      refine ⟨fun _ _ _ => rfl, fun hcon => absurd rfl hcon, fun _ => rfl, ?_⟩
      intro w hw
      simp at hw
    · rw [if_neg heq]
      by_cases hcan : (!user || (pathSuffix filename).isEmpty
          || PLACEHOLDER_EXTENSIONS.contains (strLower (pathSuffix filename))) = true
      · rw [if_pos hcan]
        refine ⟨?_, ?_, ?_, ?_⟩
        · intro hu hne hph
          rw [hu, hne, hph] at hcan
          simp at hcan
        · intro _
          rcases Bool.or_eq_true_iff.mp hcan with h | h
          · rcases Bool.or_eq_true_iff.mp h with h | h
            · exact Or.inl (by simpa using h)
            · exact Or.inr (Or.inl h)
          · exact Or.inr (Or.inr h)
        · intro hcon
          simp at hcon
        · intro w hw
          simp only [Option.some.injEq] at hw
          rw [← hw]
          exact strHas_warning _ _ _ _ _ _
      · rw [if_neg hcan]
        refine ⟨fun _ _ _ => rfl, fun hcon => absurd rfl hcon, fun _ => rfl, ?_⟩
        intro w hw
        simp at hw

/-- Witness for C5: a user-supplied `report.pdf` is kept unchanged with no
warning (here the detection itself returns nothing: no response). -/
theorem ensure_extension_replacement_policy_witness :
    _ensure_extension_matches_content none guessNone "report.pdf" "https://x/y"
      none [] true = ("report.pdf", none) :=
  (ensure_extension_replacement_policy none guessNone "report.pdf" "https://x/y"
    none [] true).1 rfl (by decide) (by decide)

/-- C6: the GitHub blob URL rewrites to its raw-content equivalent, the
HuggingFace blob path segment rewrites to resolve, and whenever the guard
pattern (host substring together with the `/blob/` segment) is absent the
rewrite is the identity. -/
theorem url_rewrite_rules :
    (_handle_github_url "https://github.com/user/repo/blob/main/file.pdf" =
      "https://raw.githubusercontent.com/user/repo/main/file.pdf") ∧
    (_handle_huggingface_url
        "https://huggingface.co/datasets/user/dataset/blob/main/data.csv" =
      "https://huggingface.co/datasets/user/dataset/resolve/main/data.csv") ∧
    (∀ url, (strHas url "github.com" && strHas url "/blob/") = false →
      _handle_github_url url = url) ∧
    (∀ url, (strHas url "huggingface.co" && strHas url "/blob/") = false →
      _handle_huggingface_url url = url) := by
  refine ⟨by decide, by decide, ?_, ?_⟩
  · intro url h
    unfold _handle_github_url
    rw [if_neg (by simp [h])]
  · intro url h
    unfold _handle_huggingface_url
    rw [if_neg (by simp [h])]

/-- Witness for C6: a URL matching neither pattern passes through both
rewrites unchanged. -/
theorem url_rewrite_rules_witness :
    _handle_github_url "https://example.org/data" = "https://example.org/data" ∧
    _handle_huggingface_url "https://example.org/data" = "https://example.org/data" :=
  ⟨url_rewrite_rules.2.2.1 "https://example.org/data" (by decide),
   url_rewrite_rules.2.2.2 "https://example.org/data" (by decide)⟩

/-- C7 (amended): for every input and maximum, the sanitizer output
contains none of the forbidden characters, never starts with an
underscore, and has length at most the maximum; it also never ends with an
underscore provided no truncation occurred (the pre-truncation result fits
the maximum).  Truncation itself can cut a name in the middle of a token
and leave a trailing underscore. -/
theorem sanitize_filename_guarantees (s : String) (m : Nat) :
    (∀ c ∈ (_sanitize_filename s m).data, isForbidden c = false) ∧
    (∀ c, (_sanitize_filename s m).data.head? = some c → c ≠ '_') ∧
    (_sanitize_filename s m).data.length ≤ m ∧
    ((stripUnderscores (collapseAux false (replaceForbidden s.data))).length ≤ m →
      ∀ c, (_sanitize_filename s m).data.getLast? = some c → c ≠ '_') := by
  refine ⟨?_, ?_, ?_, ?_⟩
  · intro c hc
    exact sanitizeList_mem_not_forbidden hc
  · intro c hc
    exact sanitizeList_head hc
  · exact sanitizeList_length s.data m
  · intro hlen c hc
    exact sanitizeList_getLast_no_trunc hlen hc

/-- Witness for C7: `My Doc` sanitizes to `My_Doc`, of length within the
maximum. -/
theorem sanitize_filename_guarantees_witness :
    _sanitize_filename "My Doc" 200 = "My_Doc" ∧
    (_sanitize_filename "My Doc" 200).data.length ≤ 200 :=
  ⟨by decide, (sanitize_filename_guarantees "My Doc" 200).2.2.1⟩

/-- Counterexample for C7 as stated: with maximum 2, the input `a b`
sanitizes to `a_`, which ends in an underscore — truncation reintroduces a
trailing underscore the strip step had excluded. -/
theorem sanitize_filename_counterexample :
    _sanitize_filename "a b" 2 = "a_" ∧
    (_sanitize_filename "a b" 2).data.getLast? = some '_' :=
  ⟨by decide, by decide⟩

/-- C8 (amended): the sanitizer is idempotent on every input whose
sanitized output does not end with an underscore; when truncation leaves a
trailing underscore, a second application additionally strips it, so the
one-pass output is not always a fixed point. -/
theorem sanitize_filename_idempotent_on_untruncated (s : String) (m : Nat)
    (hlast : (_sanitize_filename s m).data.getLast? ≠ some '_') :
    _sanitize_filename (_sanitize_filename s m) m = _sanitize_filename s m := by
  unfold _sanitize_filename
  congr 1
  exact sanitizeList_idem fun c hc heq => hlast (heq ▸ hc)

/-- Witness for C8: `My Doc` sanitizes to `My_Doc`, a fixed point of the
sanitizer. -/
theorem sanitize_filename_idempotent_witness :
    _sanitize_filename (_sanitize_filename "My Doc" 200) 200 =
      _sanitize_filename "My Doc" 200 :=
  sanitize_filename_idempotent_on_untruncated "My Doc" 200 (by decide)

/-- A 201-character name: 199 letters, a space, one more letter. -/
def longName : String :=
  ⟨List.replicate 199 'a' ++ [' ', 'b']⟩

set_option maxRecDepth 8000 in
/-- Counterexample for C8 as stated: sanitizing the 201-character
`longName` collapses the space to an underscore and truncates to 200
characters, ending in `_`; a second application strips that underscore, so
the sanitizer is not idempotent on all inputs. -/
theorem sanitize_idempotence_counterexample :
    _sanitize_filename (_sanitize_filename longName) ≠ _sanitize_filename longName := by
  decide

theorem zip_map_eq_zipWith (dl : String → Option String → Except String DlResult) :
    ∀ (l : List String) (m : List (Option String)),
      ((l.zip m).map fun p =>
          match dl p.1 p.2 with
          | Except.ok r => r
          | Except.error e => failureResult p.1 e) =
        List.zipWith
          (fun u c =>
            match dl u c with
            | Except.ok r => r
            | Except.error e => failureResult u e) l m
  | [], _ => by simp
  | _ :: _, [] => by simp
  | u :: us, c :: cs => by
    simp only [List.zip_cons_cons, List.map_cons, List.zipWith_cons_cons]
    rw [zip_map_eq_zipWith dl us cs]

theorem strHas_failed (e : String) : strHas ("Failed: " ++ e) "Failed" = true := by
  simp only [strHas, String.data_append]
  apply infixAux_of_isPrefixOf
  rw [(by decide : (['F', 'a', 'i', 'l', 'e', 'd', ':', ' '] : List Char) =
    ['F', 'a', 'i', 'l', 'e', 'd'] ++ [':', ' ']), List.append_assoc]
  exact isPrefixOf_append_self _ _

/-- C9: `download_multiple` fails fast with the ValueError message when a
context list of the wrong length is given (for every download function, so
no download affects this outcome); otherwise it returns one result per URL
in input order, the i-th result being the i-th download outcome, with a
raising download converted to a record with null path and a warning
containing Failed. -/
theorem download_multiple_batch_behavior
    (dl : String → Option String → Except String DlResult)
    (urls : List String) (contexts : Option (List String)) :
    (∀ cs, contexts = some cs → cs.length ≠ urls.length →
      download_multiple dl urls contexts =
        Except.error "contexts must be same length as urls") ∧
    (∀ rs, download_multiple dl urls contexts = Except.ok rs →
      rs.length = urls.length ∧
      rs = List.zipWith
        (fun u c => match dl u c with
          | Except.ok r => r
          | Except.error e => failureResult u e)
        urls (ctxList urls contexts)) ∧
    (∀ u c e, dl u c = Except.error e →
      (match dl u c with
        | Except.ok r => r
        | Except.error e2 => failureResult u e2) = failureResult u e ∧
      (failureResult u e).path = none ∧
      ("Failed: " ++ e) ∈ (failureResult u e).warnings ∧
      strHas ("Failed: " ++ e) "Failed" = true) := by
  refine ⟨?_, ?_, ?_⟩
  · intro cs hcs hne
    subst hcs
    unfold download_multiple
    rw [if_pos (by simpa [ctxList] using hne)]
  · intro rs h
    unfold download_multiple at h
    by_cases hlen : (ctxList urls contexts).length ≠ urls.length
    · rw [if_pos hlen] at h
      exact absurd h (by simp)
    · rw [if_neg hlen] at h
      simp only [Except.ok.injEq] at h
      have hc : (ctxList urls contexts).length = urls.length := by omega
      rw [zip_map_eq_zipWith dl urls (ctxList urls contexts)] at h
      constructor
      · rw [← h, List.length_zipWith, hc, Nat.min_self]
      · exact h.symm
  · intro u c e h
    rw [h]
    exact ⟨rfl, rfl, by simp [failureResult], strHas_failed e⟩

/-- A download model that succeeds on the first URL and raises on every
other one. -/
def dlSample : String → Option String → Except String DlResult :=
  fun u _ =>
    if u = "http://ok" then Except.ok ⟨some "/tmp/f", u, [], []⟩
    else Except.error "boom"

/-- Witness for C9: a batch of two URLs where the second raises yields a
two-element list whose first entry has a path and whose second is the
failure record with a Failed warning; and a wrong-length context list is
rejected with the ValueError message. -/
theorem download_multiple_batch_behavior_witness :
    (download_multiple dlSample ["http://ok", "http://bad"] none =
      Except.ok [⟨some "/tmp/f", "http://ok", [], []⟩,
        ⟨none, "http://bad", ["Failed: boom"], []⟩]) ∧
    (download_multiple dlSample ["http://ok"] (some ["c1", "c2"]) =
      Except.error "contexts must be same length as urls") ∧
    strHas "Failed: boom" "Failed" = true :=
  ⟨by rfl,
   (download_multiple_batch_behavior dlSample ["http://ok"]
     (some ["c1", "c2"])).1 ["c1", "c2"] rfl (by decide),
   by decide⟩

/-- C10: whenever the engine batch call returns (no exception escapes),
the agent tool result has success true — whatever the per-item outcomes,
including a batch where every download failed — and total failure is
visible only in the per-item records and counts packed into data. -/
theorem agent_download_multiple_success_flag (rs : List DlResult) :
    (_download_multiple (Except.ok rs)).success = true ∧
    (_download_multiple (Except.ok rs)).data =
      some ⟨rs, rs.length,
        (rs.filter fun r => !(r.path.getD "").isEmpty).length,
        rs.length - (rs.filter fun r => !(r.path.getD "").isEmpty).length⟩ := by
  exact ⟨rfl, rfl⟩
